import Mathlib

/-!
Verification of the `httpdebug` package: a `CurlTransport` round tripper
that renders each outbound HTTP request as an equivalent `curl` command,
redacting secret headers and secret query parameters, before forwarding
the request to a delegate transport.

The embedding follows `httpdebug/httpdebug.go`.  Machinery of the Go
standard library that the package relies on (`net/url` query values,
`strings` helpers) is embedded at the level the package uses it: query
keys and values are taken verbatim (percent-encoding is orthogonal to the
redaction logic and is not modelled), and `url.Values` is an association
list with one entry per distinct key, mirroring Go's `map[string][]string`.
-/

namespace HttpDebug

/-- A URL, reduced to the part before the query string (`base`, covering
scheme, host and path) and the raw query string itself, mirroring the
`RawQuery` field of `net/url.URL` that `sanitizeURL` reads and writes. -/
structure URL where
  base : String
  rawQuery : String
  deriving DecidableEq

/-- Go's `url.Values`: a map from key to the ordered list of values,
embedded as an association list with at most one entry per key. -/
abbrev Values := List (String × List String)

/-- Association-list lookup: the list of values bound to `p`, `[]` when the
key is absent, mirroring the map access `v[key]`. -/
def valuesLookup : Values → String → List String
  | [], _ => []
  | (k, ws) :: rest, p => if k = p then ws else valuesLookup rest p

/-- Go's `url.Values.Get`: the first value bound to `p`, or `""` when the
key is absent or has no values.  Note the lookup is case-sensitive, as a
Go map access is. -/
def valuesGet (vs : Values) (p : String) : String :=
  match valuesLookup vs p with
  | [] => ""
  | w :: _ => w

/-- Go's `url.Values.Set`: replace the whole value list of `p` by the
single value `w` (adding the key when absent). -/
def valuesSet : Values → String → String → Values
  | [], p, w => [(p, [w])]
  | (k, ws) :: rest, p, w =>
      if k = p then (k, [w]) :: rest else (k, ws) :: valuesSet rest p w

/-- Go's `url.Values.Add` as used by query parsing: append `w` to the value
list of `k`, creating the key at the end when absent. -/
def valuesAdd : Values → String → String → Values
  | [], k, w => [(k, [w])]
  | (k0, ws) :: rest, k, w =>
      if k0 = k then (k0, ws ++ [w]) :: rest else (k0, ws) :: valuesAdd rest k w

/-- Splitting accumulator: the segments of the list cut at each occurrence
of `sep`, with `acc` holding the reversed current segment. -/
def splitOnCharAux (sep : Char) : List Char → List Char → List (List Char)
  | [], acc => [acc.reverse]
  | c :: cs, acc =>
      if c = sep then acc.reverse :: splitOnCharAux sep cs []
      else splitOnCharAux sep cs (c :: acc)

/-- Split a character list at each occurrence of `sep` (the splitting Go's
query parser performs on `&`). -/
def splitOnChar (sep : Char) (l : List Char) : List (List Char) :=
  splitOnCharAux sep l []

/-- Go's `strings.Cut` at character level: the part before the first
occurrence of `sep` and the part after it (empty when `sep` is absent). -/
def cutChar (sep : Char) : List Char → List Char × List Char
  | [] => ([], [])
  | c :: cs =>
      if c = sep then ([], cs)
      else
        let r := cutChar sep cs
        (c :: r.1, r.2)

/-- The body of `url.ParseQuery`'s loop for one `&`-separated segment:
skip an empty segment or one containing `;`, otherwise add the key (the
part before the first `=`) with the value (the part after it, `""` when
there is none). -/
def parseStep (vs : Values) (seg : List Char) : Values :=
  if seg.isEmpty then vs
  else if seg.contains ';' then vs
  else
    let kv := cutChar '=' seg
    valuesAdd vs (String.mk kv.1) (String.mk kv.2)

/-- Go's `url.ParseQuery`: split the raw query on `&` and run `parseStep`
over the segments.  Keys and values are taken verbatim (percent-decoding
not modelled). -/
def parseQuery (raw : String) : Values :=
  (splitOnChar '&' raw.data).foldl parseStep []

/-- Byte-wise lexicographic string comparison at character level,
mirroring the `<=` Go's `sort.Strings` and `Encode` use on keys. -/
def strLeList : List Char → List Char → Bool
  | [], _ => true
  | _ :: _, [] => false
  | a :: as, b :: bs => if a = b then strLeList as bs else decide (a.toNat < b.toNat)

/-- Lexicographic order on strings (Go's `<=` on strings). -/
def strLe (s t : String) : Bool :=
  strLeList s.data t.data

/-- `strLe` as a decidable relation, the order both `sort.Strings` and
`Encode`'s key sorting use. -/
def strLeRel : String → String → Prop :=
  fun a b => strLe a b = true

instance : DecidableRel strLeRel :=
  fun a b => inferInstanceAs (Decidable (strLe a b = true))

/-- The pair emission of `url.Values.Encode`: for each key of `ks` in
order, one `(key, value)` pair per stored value of that key. -/
def encFold (vs : Values) (ks : List String) : List (String × String) :=
  ks.foldr (fun k acc => (valuesLookup vs k).map (fun w => (k, w)) ++ acc) []

/-- The key/value pairs in the order Go's `url.Values.Encode` emits them:
keys sorted, each key's values in their stored order. -/
def encodedPairs (vs : Values) : List (String × String) :=
  encFold vs (List.insertionSort strLeRel (vs.map Prod.fst))

/-- Go's `url.Values.Encode`: the sorted key/value pairs rendered as
`k=v` segments joined by `&`. -/
def encode (vs : Values) : String :=
  String.intercalate "&" ((encodedPairs vs).map (fun kv => kv.1 ++ "=" ++ kv.2))

/-- Go's `url.URL.String`, reduced to the fields the package touches: the
base followed by `?` and the raw query when the latter is non-empty. -/
def urlString (u : URL) : String :=
  u.base ++ (if u.rawQuery = "" then "" else "?" ++ u.rawQuery)

/-- The `CurlTransport` configuration: the redaction policy.  The delegate
`Transport` field is modelled as an explicit argument of `roundTrip`. -/
structure CurlTransport where
  SecretHeaders : List String
  SecretParams : List String
  deriving DecidableEq

/-- The `New()` constructor's defaults. -/
def New : CurlTransport :=
  { SecretHeaders := ["authorization"], SecretParams := ["client_secret"] }

/-- One iteration of the loop in `sanitizeURL`: when `Get p` is non-empty,
`Set p "REDACTED"` and re-encode the raw query; otherwise leave the state
(current values, current raw query) unchanged. -/
def sanitizeStep (st : Values × String) (p : String) : Values × String :=
  if valuesGet st.1 p ≠ "" then
    let ps := valuesSet st.1 p "REDACTED"
    (ps, encode ps)
  else st

/-- `CurlTransport.sanitizeURL`: `""` for a nil URL; otherwise parse the
query, run `sanitizeStep` over `SecretParams` starting from the original
raw query, and render the URL with the final raw query. -/
def sanitizeURL (t : CurlTransport) : Option URL → String
  | none => ""
  | some uri =>
      let fin := t.SecretParams.foldl sanitizeStep (parseQuery uri.rawQuery, uri.rawQuery)
      urlString { uri with rawQuery := fin.2 }

/-- The character-level body of `escapeSingleQuote`: each `'` becomes the
two characters `\` and `'`; everything else is copied. -/
def escapeList : List Char → List Char
  | [] => []
  | c :: cs => if c = '\'' then '\\' :: '\'' :: escapeList cs else c :: escapeList cs

/-- `escapeSingleQuote`: `strings.ReplaceAll(s, "'", "\\'")`. -/
def escapeSingleQuote (s : String) : String :=
  String.mk (escapeList s.data)

/-- ASCII lowercasing of one character (the case folding the package's
header matching relies on). -/
def lowerChar (c : Char) : Char :=
  if 65 ≤ c.toNat && c.toNat ≤ 90 then Char.ofNat (c.toNat + 32) else c

/-- Go's `strings.EqualFold` at the ASCII level used by the package:
equality after lowercasing each character. -/
def equalFold (s t : String) : Bool :=
  s.data.map lowerChar == t.data.map lowerChar

/-- Whether a header key matches some entry of the secret-header list,
mirroring the loop of `redactSecret` in `dumpRequestAsCurl`. -/
def isSecretHeader (secretHeaders : List String) (k : String) : Bool :=
  secretHeaders.any (fun secret => equalFold k secret)

/-- The `-H` line `dumpRequestAsCurl` emits for one header entry: the
redacted form for a secret key, otherwise the comma-joined values run
through `escapeSingleQuote`.  The key is emitted verbatim in both arms. -/
def headerLine (secretHeaders : List String) (k : String) (v : List String) : String :=
  if isSecretHeader secretHeaders k then
    "-H '" ++ k ++ ": <REDACTED>'"
  else
    "-H '" ++ k ++ ": " ++ escapeSingleQuote (String.intercalate ", " v) ++ "'"

deriving instance DecidableEq for Except

/-- A request body stream, modelled by the outcome of reading it to
completion: the full contents, or the read error the stream returns. -/
abbrev Body := Except String String

/-- An `http.Request`, reduced to the fields `dumpRequestAsCurl` touches.
The header is an association list with one entry per key; its list order
stands for Go's (unspecified) map iteration order. -/
structure Request where
  method : String
  url : Option URL
  header : List (String × List String)
  body : Option Body
  deriving DecidableEq

/-- The separator joining the rendered lines: backslash-newline
continuation plus a two-space indent. -/
def curlSep : String := " \\\n  "

/-- `dumpRequestAsCurl`: the `curl -X` line and the sanitized URL, the
sorted header lines, and — when a body is attached — its contents drained
and rendered as a `-d` line, with a fresh stream over the same bytes
reattached to the request.  A body read error aborts with that error. -/
def dumpRequestAsCurl (t : CurlTransport) (req : Request) :
    Except String (String × Request) :=
  let lines := ["curl -X " ++ req.method, sanitizeURL t req.url]
  let headers := req.header.foldl
    (fun acc kv => acc ++ [headerLine t.SecretHeaders kv.1 kv.2]) []
  let lines := lines ++ List.insertionSort strLeRel headers
  match req.body with
  | none => Except.ok (String.intercalate curlSep lines, req)
  | some (Except.error e) => Except.error e
  | some (Except.ok buf) =>
      Except.ok
        (String.intercalate curlSep (lines ++ ["-d '" ++ escapeSingleQuote buf ++ "'"]),
         { req with body := some (Except.ok buf) })

/-- `CurlTransport.RoundTrip`, with the delegate transport explicit and
polymorphic in the response type: dump the request; on failure return the
error without consulting the delegate, on success forward the updated
request to the delegate.  The `logger` side effect carries no data flow
back into the result and is not modelled. -/
def roundTrip {R : Type} (t : CurlTransport) (delegate : Request → Except String R)
    (req : Request) : Except String R :=
  match dumpRequestAsCurl t req with
  | Except.error e => Except.error e
  | Except.ok (_, req2) => delegate req2

/-- Scanner for the escaping property, carrying the previous character:
`true` iff every single quote in the list is immediately preceded by a
backslash (with `prev` standing for the character before the list). -/
def quotesEscapedFrom (prev : Char) : List Char → Bool
  | [] => true
  | c :: rest => (c ≠ '\'' || prev = '\\') && quotesEscapedFrom c rest

/-- Whether every single quote in the list is immediately preceded by a
backslash (a leading quote counts as unescaped). -/
def quotesEscaped (l : List Char) : Bool :=
  quotesEscapedFrom 'a' l

/-- Characters with equal code points are equal. -/
theorem char_eq_of_toNat_eq {a b : Char} (h : a.toNat = b.toNat) : a = b :=
  Char.ext (UInt32.ext h)

/-- The lexicographic character-list order is total. -/
theorem strLeList_total (a : List Char) :
    ∀ b, strLeList a b = true ∨ strLeList b a = true := by
  induction a with
  | nil => intro b; left; rfl
  | cons c cs ih =>
    intro b
    cases b with
    | nil => right; rfl
    | cons d ds =>
      by_cases h : c = d
      · subst h
        simpa only [strLeList, if_pos rfl] using ih ds
      · have hn : c.toNat ≠ d.toNat := fun he => h (char_eq_of_toNat_eq he)
        simp only [strLeList, if_neg h, if_neg (Ne.symm h)]
        rcases Nat.lt_or_ge c.toNat d.toNat with hlt | hge
        · left; exact decide_eq_true hlt
        · right; exact decide_eq_true (lt_of_le_of_ne hge (Ne.symm hn))

/-- The lexicographic character-list order is transitive. -/
theorem strLeList_trans (a : List Char) :
    ∀ b c, strLeList a b = true → strLeList b c = true → strLeList a c = true := by
  induction a with
  | nil => intro b c _ _; rfl
  | cons x xs ih =>
    intro b c h1 h2
    cases b with
    | nil => simp [strLeList] at h1
    | cons y ys =>
      cases c with
      | nil => simp [strLeList] at h2
      | cons z zs =>
        by_cases hxy : x = y
        · subst hxy
          simp only [strLeList, if_pos rfl] at h1
          by_cases hyz : x = z
          · subst hyz
            simp only [strLeList, if_pos rfl] at h2 ⊢
            exact ih ys zs h1 h2
          · simpa only [strLeList, if_neg hyz] using h2
        · simp only [strLeList, if_neg hxy] at h1
          have hxy2 : x.toNat < y.toNat := of_decide_eq_true h1
          by_cases hyz : y = z
          · subst hyz
            simp only [strLeList, if_neg hxy]
            exact decide_eq_true hxy2
          · simp only [strLeList, if_neg hyz] at h2
            have hyz2 : y.toNat < z.toNat := of_decide_eq_true h2
            have hxz : x.toNat < z.toNat := Nat.lt_trans hxy2 hyz2
            have hne : x ≠ z := fun he => absurd (congrArg Char.toNat he) (Nat.ne_of_lt hxz)
            simp only [strLeList, if_neg hne]
            exact decide_eq_true hxz

/-- The lexicographic character-list order is antisymmetric. -/
theorem strLeList_antisymm (a : List Char) :
    ∀ b, strLeList a b = true → strLeList b a = true → a = b := by
  induction a with
  | nil =>
    intro b h1 h2
    cases b with
    | nil => rfl
    | cons d ds => simp [strLeList] at h2
  | cons c cs ih =>
    intro b h1 h2
    cases b with
    | nil => simp [strLeList] at h1
    | cons d ds =>
      by_cases h : c = d
      · subst h
        simp only [strLeList, if_pos rfl] at h1 h2
        rw [ih ds h1 h2]
      · simp only [strLeList, if_neg h, if_neg (Ne.symm h)] at h1 h2
        exact absurd (Nat.lt_trans (of_decide_eq_true h1) (of_decide_eq_true h2))
          (Nat.lt_irrefl _)

/-- The lexicographic character-list order is reflexive. -/
theorem strLeList_refl (a : List Char) : strLeList a a = true := by
  induction a with
  | nil => rfl
  | cons c cs ih => simp [strLeList, ih]

instance : IsTotal String strLeRel :=
  ⟨fun a b => strLeList_total a.data b.data⟩

instance : IsTrans String strLeRel :=
  ⟨fun a b c => strLeList_trans a.data b.data c.data⟩

instance : IsAntisymm String strLeRel :=
  ⟨fun a b h1 h2 => String.ext (strLeList_antisymm a.data b.data h1 h2)⟩

instance : IsRefl String strLeRel :=
  ⟨fun a => strLeList_refl a.data⟩

/-- Appending one rendered line per element, as the header loop of
`dumpRequestAsCurl` does, builds the map of the rendering function. -/
theorem foldl_snoc_eq_map {α β : Type} (f : α → β) (l : List α) :
    ∀ acc : List β, l.foldl (fun acc x => acc ++ [f x]) acc = acc ++ l.map f := by
  induction l with
  | nil => intro acc; simp
  | cons x xs ih => intro acc; simp [ih]

/-- Normal form of `dumpRequestAsCurl` when no body is attached. -/
theorem dump_none (t : CurlTransport) (req : Request) (h : req.body = none) :
    dumpRequestAsCurl t req =
      Except.ok
        (String.intercalate curlSep
          (["curl -X " ++ req.method, sanitizeURL t req.url] ++
            List.insertionSort strLeRel
              (req.header.map (fun kv => headerLine t.SecretHeaders kv.1 kv.2))),
         req) := by
  unfold dumpRequestAsCurl
  rw [h, foldl_snoc_eq_map (fun kv => headerLine t.SecretHeaders kv.1 kv.2) req.header []]
  rfl

/-- Normal form of `dumpRequestAsCurl` when the body stream errors. -/
theorem dump_err (t : CurlTransport) (req : Request) (e : String)
    (h : req.body = some (Except.error e)) :
    dumpRequestAsCurl t req = Except.error e := by
  unfold dumpRequestAsCurl
  rw [h]

/-- Normal form of `dumpRequestAsCurl` when the body reads to `buf`. -/
theorem dump_ok (t : CurlTransport) (req : Request) (buf : String)
    (h : req.body = some (Except.ok buf)) :
    dumpRequestAsCurl t req =
      Except.ok
        (String.intercalate curlSep
          ((["curl -X " ++ req.method, sanitizeURL t req.url] ++
            List.insertionSort strLeRel
              (req.header.map (fun kv => headerLine t.SecretHeaders kv.1 kv.2))) ++
            ["-d '" ++ escapeSingleQuote buf ++ "'"]),
         { req with body := some (Except.ok buf) }) := by
  unfold dumpRequestAsCurl
  rw [h, foldl_snoc_eq_map (fun kv => headerLine t.SecretHeaders kv.1 kv.2) req.header []]
  rfl

/-- The rendered command (and the error, when rendering fails) depends on
the header list only through the sorted rendered header lines: requests
equal in method, URL and body whose header lists render and sort to the
same lines dump to the same string. -/
theorem dump_string_congr (t : CurlTransport) (r1 r2 : Request)
    (hm : r1.method = r2.method) (hu : r1.url = r2.url) (hb : r1.body = r2.body)
    (hs : List.insertionSort strLeRel
            (r1.header.map (fun kv => headerLine t.SecretHeaders kv.1 kv.2)) =
          List.insertionSort strLeRel
            (r2.header.map (fun kv => headerLine t.SecretHeaders kv.1 kv.2))) :
    (dumpRequestAsCurl t r1).map Prod.fst = (dumpRequestAsCurl t r2).map Prod.fst := by
  match h2 : r2.body with
  | none =>
    rw [dump_none t r1 (hb.trans h2), dump_none t r2 h2]
    simp only [Except.map]
    rw [hm, hu, hs]
  | some (Except.error e) =>
    rw [dump_err t r1 e (hb.trans h2), dump_err t r2 e h2]
  | some (Except.ok buf) =>
    rw [dump_ok t r1 buf (hb.trans h2), dump_ok t r2 buf h2]
    simp only [Except.map]
    rw [hm, hu, hs]

/-- C1: for every request whose body stream reads to completion without
error, `dumpRequestAsCurl` succeeds and hands back the very same request:
in particular the reattached body stream reads to exactly the original
bytes, so a subsequent send transmits what it would have transmitted had
rendering never occurred. -/
theorem render_preserves_body (t : CurlTransport) (req : Request) (buf : String)
    (h : req.body = some (Except.ok buf)) :
    ∃ s : String, ∃ req2 : Request,
      dumpRequestAsCurl t req = Except.ok (s, req2) ∧
      req2.body = some (Except.ok buf) ∧ req2 = req := by
  refine ⟨_, _, dump_ok t req buf h, rfl, ?_⟩
  cases req with
  | mk m u hd b => simpa using h.symm

/-- C1 witness: a concrete POST with body `hello` renders successfully and
returns the request unchanged, its body still reading to `hello`. -/
theorem render_preserves_body_witness :
    ({ method := "POST", url := some ⟨"/foo", ""⟩, header := [],
       body := some (Except.ok "hello") } : Request).body =
        some (Except.ok "hello") ∧
    ∃ s : String, ∃ req2 : Request,
      dumpRequestAsCurl New
          { method := "POST", url := some ⟨"/foo", ""⟩, header := [],
            body := some (Except.ok "hello") } = Except.ok (s, req2) ∧
      req2.body = some (Except.ok "hello") ∧
      req2 = { method := "POST", url := some ⟨"/foo", ""⟩, header := [],
               body := some (Except.ok "hello") } :=
  ⟨rfl, render_preserves_body New _ "hello" rfl⟩

/-- C4: for every request whose body stream errors, rendering fails with
exactly the underlying read error and no command string, and `RoundTrip`
returns that same error whatever the delegate transport is — the delegate
is never consulted. -/
theorem render_error_undispatched (t : CurlTransport) (req : Request) (e : String)
    (h : req.body = some (Except.error e)) :
    dumpRequestAsCurl t req = Except.error e ∧
    ∀ (R : Type) (delegate : Request → Except String R),
      roundTrip t delegate req = Except.error e := by
  have hd := dump_err t req e h
  refine ⟨hd, fun R delegate => ?_⟩
  unfold roundTrip
  rw [hd]

/-- C4 witness: a concrete request whose stream fails with `custom error`
makes both the renderer and the round trip fail with that error, even for
a delegate that would succeed. -/
theorem render_error_undispatched_witness :
    ({ method := "GET", url := some ⟨"/foo", ""⟩, header := [],
       body := some (Except.error "custom error") } : Request).body =
        some (Except.error "custom error") ∧
    dumpRequestAsCurl New
        { method := "GET", url := some ⟨"/foo", ""⟩, header := [],
          body := some (Except.error "custom error") } =
      Except.error "custom error" ∧
    roundTrip New (fun _ => Except.ok ())
        { method := "GET", url := some ⟨"/foo", ""⟩, header := [],
          body := some (Except.error "custom error") } =
      Except.error "custom error" :=
  ⟨rfl, (render_error_undispatched New _ "custom error" rfl).1,
    (render_error_undispatched New _ "custom error" rfl).2 Unit (fun _ => Except.ok ())⟩

/-- C5: every successfully rendered command is the `curl -X` line, the
sanitized URL (empty for a nil URL), the header lines sorted by the fully
rendered `-H` strings, and at most one `-d` line present exactly when a
body stream is attached, joined by backslash-newline plus two spaces. -/
theorem curl_command_structure (t : CurlTransport) (req : Request) (s : String)
    (req2 : Request) (h : dumpRequestAsCurl t req = Except.ok (s, req2)) :
    s = String.intercalate curlSep
        (["curl -X " ++ req.method, sanitizeURL t req.url] ++
          List.insertionSort strLeRel
            (req.header.map (fun kv => headerLine t.SecretHeaders kv.1 kv.2)) ++
          (match req.body with
           | some (Except.ok buf) => ["-d '" ++ escapeSingleQuote buf ++ "'"]
           | _ => [])) ∧
    sanitizeURL t none = "" := by
  refine ⟨?_, rfl⟩
  match hb : req.body with
  | none =>
    rw [dump_none t req hb] at h
    simp only [Except.ok.injEq, Prod.mk.injEq] at h
    rw [← h.1, List.append_nil]
  | some (Except.error e) =>
    rw [dump_err t req e hb] at h
    exact absurd h (by simp)
  | some (Except.ok buf) =>
    rw [dump_ok t req buf hb] at h
    simp only [Except.ok.injEq, Prod.mk.injEq] at h
    rw [← h.1, List.append_assoc]

/-- C5 witness: the structure theorem applied to a concrete POST with one
header and a body. -/
theorem curl_command_structure_witness :
    dumpRequestAsCurl New
        { method := "POST", url := some ⟨"/foo", ""⟩, header := [("A", ["1"])],
          body := some (Except.ok "x") } =
      Except.ok ("curl -X POST \\\n  /foo \\\n  -H 'A: 1' \\\n  -d 'x'",
        { method := "POST", url := some ⟨"/foo", ""⟩, header := [("A", ["1"])],
          body := some (Except.ok "x") }) ∧
    "curl -X POST \\\n  /foo \\\n  -H 'A: 1' \\\n  -d 'x'" =
      String.intercalate curlSep
        (["curl -X " ++ "POST",
            sanitizeURL New (some ⟨"/foo", ""⟩)] ++
          List.insertionSort strLeRel
            ([("A", ["1"])].map (fun kv => headerLine New.SecretHeaders kv.1 kv.2)) ++
          ["-d '" ++ escapeSingleQuote "x" ++ "'"]) :=
  ⟨by decide,
    (curl_command_structure New
      { method := "POST", url := some ⟨"/foo", ""⟩, header := [("A", ["1"])],
        body := some (Except.ok "x") }
      "curl -X POST \\\n  /foo \\\n  -H 'A: 1' \\\n  -d 'x'"
      { method := "POST", url := some ⟨"/foo", ""⟩, header := [("A", ["1"])],
        body := some (Except.ok "x") }
      (by decide)).1⟩

/-- C8: the rendered string (and any rendering error) is invariant under
permuting the header list — the output does not depend on the iteration
order of the header mapping, so two renders of the same request content
are byte-identical. -/
theorem render_deterministic (t : CurlTransport) (req : Request)
    (h2 : List (String × List String)) (hperm : req.header.Perm h2) :
    (dumpRequestAsCurl t { req with header := h2 }).map Prod.fst =
      (dumpRequestAsCurl t req).map Prod.fst := by
  apply dump_string_congr t { req with header := h2 } req rfl rfl rfl
  exact List.eq_of_perm_of_sorted
    ((List.perm_insertionSort _ _).trans
      (((hperm.map (fun kv => headerLine t.SecretHeaders kv.1 kv.2)).symm).trans
        (List.perm_insertionSort _ _).symm))
    (List.sorted_insertionSort _ _) (List.sorted_insertionSort _ _)

/-- C8 witness: swapping two concrete header entries leaves the rendered
string unchanged. -/
theorem render_deterministic_witness :
    ([("B", ["2"]), ("A", ["1"])] : List (String × List String)).Perm
        [("A", ["1"]), ("B", ["2"])] ∧
    (dumpRequestAsCurl New
        { method := "GET", url := some ⟨"/foo", ""⟩,
          header := [("A", ["1"]), ("B", ["2"])], body := none }).map Prod.fst =
      (dumpRequestAsCurl New
        { method := "GET", url := some ⟨"/foo", ""⟩,
          header := [("B", ["2"]), ("A", ["1"])], body := none }).map Prod.fst :=
  ⟨List.Perm.swap _ _ _,
    render_deterministic New
      { method := "GET", url := some ⟨"/foo", ""⟩,
        header := [("B", ["2"]), ("A", ["1"])], body := none }
      [("A", ["1"]), ("B", ["2"])] (List.Perm.swap _ _ _)⟩

/-- C3: a header key case-insensitively matching a secret entry renders as
the literal `-H` line with the key's original casing and the `<REDACTED>`
marker whatever its values are, and the rendered command is unchanged when
that key's values are replaced — no value of a secret header reaches the
output. -/
theorem secret_header_redacted (t : CurlTransport) (k : String)
    (hk : isSecretHeader t.SecretHeaders k = true) :
    (∀ v, headerLine t.SecretHeaders k v = "-H '" ++ k ++ ": <REDACTED>'") ∧
    ∀ (req : Request) (v2 : List String),
      (dumpRequestAsCurl t
          { req with
            header := req.header.map (fun kv => if kv.1 = k then (kv.1, v2) else kv) }).map
          Prod.fst =
        (dumpRequestAsCurl t req).map Prod.fst := by
  have hline : ∀ v, headerLine t.SecretHeaders k v = "-H '" ++ k ++ ": <REDACTED>'" := by
    intro v
    simp [headerLine, hk]
  refine ⟨hline, fun req v2 => ?_⟩
  apply dump_string_congr t
    { req with header := req.header.map (fun kv => if kv.1 = k then (kv.1, v2) else kv) }
    req rfl rfl rfl
  congr 1
  rw [List.map_map]
  apply List.map_congr_left
  intro kv _
  simp only [Function.comp_apply]
  by_cases hkv : kv.1 = k
  · rw [if_pos hkv]
    show headerLine t.SecretHeaders kv.1 v2 = headerLine t.SecretHeaders kv.1 kv.2
    rw [hkv, hline v2, hline kv.2]
  · rw [if_neg hkv]

/-- C3 witness: with the default policy, the mixed-case key
`AuthoRizaTion` renders redacted, and replacing its value leaves the
rendered command unchanged. -/
theorem secret_header_redacted_witness :
    isSecretHeader New.SecretHeaders "AuthoRizaTion" = true ∧
    headerLine New.SecretHeaders "AuthoRizaTion" ["Bearer ABCD0123"] =
      "-H '" ++ "AuthoRizaTion" ++ ": <REDACTED>'" ∧
    (dumpRequestAsCurl New
        { method := "GET", url := some ⟨"/foo", ""⟩,
          header := [("AuthoRizaTion", ["Bearer ABCD0123"])].map
            (fun kv => if kv.1 = "AuthoRizaTion" then (kv.1, ["other"]) else kv),
          body := none }).map Prod.fst =
      (dumpRequestAsCurl New
        { method := "GET", url := some ⟨"/foo", ""⟩,
          header := [("AuthoRizaTion", ["Bearer ABCD0123"])], body := none }).map
        Prod.fst :=
  ⟨by decide, (secret_header_redacted New "AuthoRizaTion" (by decide)).1 _,
    (secret_header_redacted New "AuthoRizaTion" (by decide)).2
      { method := "GET", url := some ⟨"/foo", ""⟩,
        header := [("AuthoRizaTion", ["Bearer ABCD0123"])], body := none } ["other"]⟩

/-- C9: rendering never touches the request's method, URL or header
mapping; the only field it may change is the body, which on success is a
stream over exactly the drained bytes (and the request is returned as-is
when no body is attached). -/
theorem render_frame (t : CurlTransport) (req : Request) (s : String) (req2 : Request)
    (h : dumpRequestAsCurl t req = Except.ok (s, req2)) :
    req2.method = req.method ∧ req2.url = req.url ∧ req2.header = req.header ∧
    (req.body = none → req2 = req) ∧
    ∀ buf, req.body = some (Except.ok buf) → req2.body = some (Except.ok buf) := by
  match hb : req.body with
  | none =>
    rw [dump_none t req hb] at h
    simp only [Except.ok.injEq, Prod.mk.injEq] at h
    rw [← h.2]
    exact ⟨rfl, rfl, rfl, fun _ => rfl, fun _ hbuf => Option.noConfusion hbuf⟩
  | some (Except.error e) =>
    rw [dump_err t req e hb] at h
    exact absurd h (by simp)
  | some (Except.ok buf) =>
    rw [dump_ok t req buf hb] at h
    simp only [Except.ok.injEq, Prod.mk.injEq] at h
    rw [← h.2]
    exact ⟨rfl, rfl, rfl, fun hn => Option.noConfusion hn, fun _ hbuf2 => hbuf2⟩

/-- C9 witness: the frame theorem applied to a concrete request with a
body: method, URL and header come back untouched. -/
theorem render_frame_witness :
    dumpRequestAsCurl New
        { method := "POST", url := some ⟨"/foo", "a=1"⟩, header := [("A", ["1"])],
          body := some (Except.ok "hi") } =
      Except.ok ("curl -X POST \\\n  /foo?a=1 \\\n  -H 'A: 1' \\\n  -d 'hi'",
        { method := "POST", url := some ⟨"/foo", "a=1"⟩, header := [("A", ["1"])],
          body := some (Except.ok "hi") }) ∧
    (({ method := "POST", url := some ⟨"/foo", "a=1"⟩, header := [("A", ["1"])],
        body := some (Except.ok "hi") } : Request).method =
      ({ method := "POST", url := some ⟨"/foo", "a=1"⟩, header := [("A", ["1"])],
         body := some (Except.ok "hi") } : Request).method) :=
  ⟨by decide,
    (render_frame New
      { method := "POST", url := some ⟨"/foo", "a=1"⟩, header := [("A", ["1"])],
        body := some (Except.ok "hi") }
      "curl -X POST \\\n  /foo?a=1 \\\n  -H 'A: 1' \\\n  -d 'hi'"
      { method := "POST", url := some ⟨"/foo", "a=1"⟩, header := [("A", ["1"])],
        body := some (Except.ok "hi") }
      (by decide)).1⟩

/-- C2, failing input: with the default policy, the query key
`CLIENT_SECRET` — which case-insensitively matches the configured
`client_secret` and has a non-empty value — passes through unredacted,
because `sanitizeURL` looks the secret name up with the case-sensitive
`url.Values.Get`; the same value under the exact-case key is redacted. -/
theorem secret_param_lookup_case_sensitive :
    sanitizeURL New (some ⟨"/foo", "CLIENT_SECRET=abc"⟩) = "/foo?CLIENT_SECRET=abc" ∧
    sanitizeURL New (some ⟨"/foo", "client_secret=abc"⟩) =
      "/foo?client_secret=REDACTED" := by
  decide

/-- The output of `escapeList` carries no quote right behind a quote or at
the start: every quote it emits sits right after the backslash emitted
with it. -/
theorem quotesEscapedFrom_escapeList (l : List Char) :
    ∀ prev : Char, quotesEscapedFrom prev (escapeList l) = true := by
  induction l with
  | nil => intro prev; rfl
  | cons c cs ih =>
    intro prev
    by_cases hc : c = '\''
    · subst hc
      simp only [escapeList, if_pos rfl, quotesEscapedFrom]
      simp [ih]
    · simp only [escapeList, if_neg hc, quotesEscapedFrom]
      simp [hc, ih]

/-- C6 counterexample: the single quote inside the header key `a'b` is
emitted verbatim — the rendered line is not the line the claim requires,
in which the key's quote is backslash-escaped. -/
theorem header_key_quote_unescaped :
    headerLine New.SecretHeaders "a'b" ["v"] = "-H 'a'b: v'" ∧
    headerLine New.SecretHeaders "a'b" ["v"] ≠ "-H 'a\\'b: v'" := by
  decide

/-- C6 amended: every single quote in the comma-joined header values of a
non-secret header and in the body is escaped by prefixing a backslash
before the line is wrapped in single quotes; header keys are emitted
verbatim. -/
theorem quotes_escaped_in_values_and_body (t : CurlTransport) (req : Request)
    (buf s2 : String) (k : String) (v : List String)
    (hns : isSecretHeader t.SecretHeaders k = false)
    (hb : req.body = some (Except.ok buf)) :
    quotesEscaped (escapeSingleQuote s2).data = true ∧
    headerLine t.SecretHeaders k v =
      "-H '" ++ k ++ ": " ++ escapeSingleQuote (String.intercalate ", " v) ++ "'" ∧
    ∃ pre : List String,
      dumpRequestAsCurl t req =
        Except.ok
          (String.intercalate curlSep (pre ++ ["-d '" ++ escapeSingleQuote buf ++ "'"]),
           { req with body := some (Except.ok buf) }) := by
  refine ⟨quotesEscapedFrom_escapeList s2.data 'a', ?_, ⟨_, dump_ok t req buf hb⟩⟩
  simp [headerLine, hns]

/-- C6 amended witness: the escaping applied to a concrete body and a
concrete non-secret header with quotes. -/
theorem quotes_escaped_witness :
    isSecretHeader New.SecretHeaders "Accept" = false ∧
    ({ method := "POST", url := some ⟨"/foo", ""⟩, header := [],
       body := some (Except.ok "I'd") } : Request).body = some (Except.ok "I'd") ∧
    (quotesEscaped (escapeSingleQuote "I'd").data = true ∧
      headerLine New.SecretHeaders "Accept" ["a'1"] =
        "-H '" ++ "Accept" ++ ": " ++
          escapeSingleQuote (String.intercalate ", " ["a'1"]) ++ "'" ∧
      ∃ pre : List String,
        dumpRequestAsCurl New
            { method := "POST", url := some ⟨"/foo", ""⟩, header := [],
              body := some (Except.ok "I'd") } =
          Except.ok
            (String.intercalate curlSep
              (pre ++ ["-d '" ++ escapeSingleQuote "I'd" ++ "'"]),
             { method := "POST", url := some ⟨"/foo", ""⟩, header := [],
               body := some (Except.ok "I'd") })) :=
  ⟨by decide, rfl,
    quotes_escaped_in_values_and_body New
      { method := "POST", url := some ⟨"/foo", ""⟩, header := [],
        body := some (Except.ok "I'd") }
      "I'd" "I'd" "Accept" ["a'1"] (by decide) rfl⟩

/-- Setting a key binds exactly the one given value to it. -/
theorem valuesLookup_valuesSet_self (vs : Values) (p w : String) :
    valuesLookup (valuesSet vs p w) p = [w] := by
  induction vs with
  | nil => simp [valuesSet, valuesLookup]
  | cons kv rest ih =>
    by_cases h : kv.1 = p
    · simp [valuesSet, valuesLookup, h]
    · simp [valuesSet, valuesLookup, h, ih]

/-- Setting one key leaves every other key's values unchanged. -/
theorem valuesLookup_valuesSet_other (vs : Values) (p q w : String) (hqp : q ≠ p) :
    valuesLookup (valuesSet vs q w) p = valuesLookup vs p := by
  induction vs with
  | nil => simp [valuesSet, valuesLookup, hqp]
  | cons kv rest ih =>
    by_cases h : kv.1 = q
    · rw [show valuesSet (kv :: rest) q w = (kv.1, [w]) :: rest by simp [valuesSet, h]]
      simp [valuesLookup, h ▸ hqp]
    · rw [show valuesSet (kv :: rest) q w = kv :: valuesSet rest q w by
        simp [valuesSet, h]]
      by_cases h2 : kv.1 = p
      · simp [valuesLookup, h2]
      · simp [valuesLookup, h2, ih]

/-- `Get` only looks at the key's value list. -/
theorem valuesGet_congr {vs vs2 : Values} {p : String}
    (h : valuesLookup vs p = valuesLookup vs2 p) : valuesGet vs p = valuesGet vs2 p := by
  unfold valuesGet
  rw [h]

/-- Once the tracked raw query is the encoding of the tracked values, the
sanitizing fold keeps it that way. -/
theorem sanitize_foldl_encode (sp : List String) :
    ∀ st : Values × String, st.2 = encode st.1 →
      (sp.foldl sanitizeStep st).2 = encode (sp.foldl sanitizeStep st).1 := by
  induction sp with
  | nil => exact fun st h => h
  | cons p rest ih =>
    intro st h
    rw [List.foldl_cons]
    apply ih
    unfold sanitizeStep
    by_cases hg : valuesGet st.1 p ≠ ""
    · rw [if_pos hg]
    · rw [if_neg hg]; exact h

/-- When no listed parameter has a non-empty first value, the sanitizing
fold is the identity: the raw query is never reassigned. -/
theorem sanitize_foldl_id (sp : List String) :
    ∀ st : Values × String, (∀ p ∈ sp, valuesGet st.1 p = "") →
      sp.foldl sanitizeStep st = st := by
  induction sp with
  | nil => intro st _; rfl
  | cons q rest ih =>
    intro st h
    rw [List.foldl_cons]
    rw [show sanitizeStep st q = st by
      unfold sanitizeStep
      rw [if_neg (not_not.mpr (h q (List.mem_cons_self q rest)))]]
    exact ih st (fun p hp => h p (List.mem_cons_of_mem q hp))

/-- When some secret parameter of the list is present with a non-empty
first value, the fold's final raw query is the encoding of its final
values. -/
theorem sanitize_foldl_hit (sp : List String) :
    ∀ (st : Values × String) (p : String), p ∈ sp → valuesGet st.1 p ≠ "" →
      (sp.foldl sanitizeStep st).2 = encode (sp.foldl sanitizeStep st).1 := by
  induction sp with
  | nil => intro st p hp; exact absurd hp (List.not_mem_nil p)
  | cons q rest ih =>
    intro st p hp hg
    rw [List.foldl_cons]
    by_cases hq : valuesGet st.1 q ≠ ""
    · apply sanitize_foldl_encode
      unfold sanitizeStep
      rw [if_pos hq]
    · rw [show sanitizeStep st q = st by unfold sanitizeStep; rw [if_neg hq]]
      rcases List.mem_cons.mp hp with he | hrest
      · exact absurd (he ▸ hg) hq
      · exact ih st p hrest hg

/-- A key already redacted stays redacted through the rest of the fold. -/
theorem sanitize_foldl_keeps (sp : List String) :
    ∀ (st : Values × String) (p : String),
      valuesLookup st.1 p = ["REDACTED"] →
      valuesLookup (sp.foldl sanitizeStep st).1 p = ["REDACTED"] := by
  induction sp with
  | nil => exact fun st p h => h
  | cons q rest ih =>
    intro st p h
    rw [List.foldl_cons]
    apply ih
    unfold sanitizeStep
    by_cases hq : valuesGet st.1 q ≠ ""
    · rw [if_pos hq]
      by_cases hqp : q = p
      · subst hqp
        exact valuesLookup_valuesSet_self st.1 q "REDACTED"
      · rw [valuesLookup_valuesSet_other st.1 p q "REDACTED" hqp]
        exact h
    · rw [if_neg hq]; exact h

/-- C10 core: a secret parameter present with a non-empty first value ends
the fold bound to the single value `REDACTED`. -/
theorem sanitize_foldl_sets (sp : List String) :
    ∀ (st : Values × String) (p : String), p ∈ sp → valuesGet st.1 p ≠ "" →
      valuesLookup (sp.foldl sanitizeStep st).1 p = ["REDACTED"] := by
  induction sp with
  | nil => intro st p hp; exact absurd hp (List.not_mem_nil p)
  | cons q rest ih =>
    intro st p hp hg
    rw [List.foldl_cons]
    rcases List.mem_cons.mp hp with he | hrest
    · subst he
      rw [show sanitizeStep st p =
            (valuesSet st.1 p "REDACTED", encode (valuesSet st.1 p "REDACTED")) by
          unfold sanitizeStep; rw [if_pos hg]]
      exact sanitize_foldl_keeps rest _ p (valuesLookup_valuesSet_self st.1 p "REDACTED")
    · by_cases hq : valuesGet st.1 q ≠ ""
      · rw [show sanitizeStep st q =
              (valuesSet st.1 q "REDACTED", encode (valuesSet st.1 q "REDACTED")) by
            unfold sanitizeStep; rw [if_pos hq]]
        by_cases hqp : q = p
        · subst hqp
          exact sanitize_foldl_keeps rest _ q (valuesLookup_valuesSet_self st.1 q "REDACTED")
        · apply ih _ p hrest
          rw [valuesGet_congr (valuesLookup_valuesSet_other st.1 p q "REDACTED" hqp)]
          exact hg
      · rw [show sanitizeStep st q = st by unfold sanitizeStep; rw [if_neg hq]]
        exact ih st p hrest hg

/-- The keys after `valuesAdd` are the old keys, possibly with the new key
at the end. -/
theorem mem_keys_valuesAdd (vs : Values) (k w x : String) :
    x ∈ (valuesAdd vs k w).map Prod.fst ↔ x ∈ vs.map Prod.fst ∨ x = k := by
  induction vs with
  | nil => simp [valuesAdd]
  | cons kv rest ih =>
    by_cases h : kv.1 = k
    · rw [show valuesAdd (kv :: rest) k w = (kv.1, kv.2 ++ [w]) :: rest by
        simp [valuesAdd, h]]
      simp only [List.map_cons, List.mem_cons]
      constructor
      · exact fun hc => Or.inl hc
      · rintro (hc | hx)
        · exact hc
        · exact Or.inl (hx.trans h.symm)
    · rw [show valuesAdd (kv :: rest) k w = kv :: valuesAdd rest k w by
        simp [valuesAdd, h]]
      simp only [List.map_cons, List.mem_cons, ih]
      tauto

/-- The keys after `valuesSet` are the old keys, possibly with the new key
at the end. -/
theorem mem_keys_valuesSet (vs : Values) (q w x : String) :
    x ∈ (valuesSet vs q w).map Prod.fst ↔ x ∈ vs.map Prod.fst ∨ x = q := by
  induction vs with
  | nil => simp [valuesSet]
  | cons kv rest ih =>
    by_cases h : kv.1 = q
    · rw [show valuesSet (kv :: rest) q w = (kv.1, [w]) :: rest by
        simp [valuesSet, h]]
      simp only [List.map_cons, List.mem_cons]
      constructor
      · exact fun hc => Or.inl hc
      · rintro (hc | hx)
        · exact hc
        · exact Or.inl (hx.trans h.symm)
    · rw [show valuesSet (kv :: rest) q w = kv :: valuesSet rest q w by
        simp [valuesSet, h]]
      simp only [List.map_cons, List.mem_cons, ih]
      tauto

/-- `valuesAdd` keeps the keys free of duplicates, as a Go map is. -/
theorem nodup_keys_valuesAdd (vs : Values) (k w : String)
    (h : (vs.map Prod.fst).Nodup) : ((valuesAdd vs k w).map Prod.fst).Nodup := by
  induction vs with
  | nil => simp [valuesAdd]
  | cons kv rest ih =>
    rcases List.nodup_cons.mp h with ⟨hmem, htail⟩
    by_cases hk : kv.1 = k
    · rw [show valuesAdd (kv :: rest) k w = (kv.1, kv.2 ++ [w]) :: rest by
        simp [valuesAdd, hk]]
      rw [List.map_cons]
      exact List.nodup_cons.mpr ⟨hmem, htail⟩
    · rw [show valuesAdd (kv :: rest) k w = kv :: valuesAdd rest k w by
        simp [valuesAdd, hk]]
      rw [List.map_cons]
      refine List.nodup_cons.mpr ⟨?_, ih htail⟩
      intro hc
      rcases (mem_keys_valuesAdd rest k w kv.1).mp hc with h1 | h2
      · exact hmem h1
      · exact hk h2

/-- `valuesSet` keeps the keys free of duplicates. -/
theorem nodup_keys_valuesSet (vs : Values) (q w : String)
    (h : (vs.map Prod.fst).Nodup) : ((valuesSet vs q w).map Prod.fst).Nodup := by
  induction vs with
  | nil => simp [valuesSet]
  | cons kv rest ih =>
    rcases List.nodup_cons.mp h with ⟨hmem, htail⟩
    by_cases hk : kv.1 = q
    · rw [show valuesSet (kv :: rest) q w = (kv.1, [w]) :: rest by
        simp [valuesSet, hk]]
      rw [List.map_cons]
      exact List.nodup_cons.mpr ⟨hmem, htail⟩
    · rw [show valuesSet (kv :: rest) q w = kv :: valuesSet rest q w by
        simp [valuesSet, hk]]
      rw [List.map_cons]
      refine List.nodup_cons.mpr ⟨?_, ih htail⟩
      intro hc
      rcases (mem_keys_valuesSet rest q w kv.1).mp hc with h1 | h2
      · exact hmem h1
      · exact hk h2

/-- One parsing step keeps the keys free of duplicates. -/
theorem nodup_keys_parseStep (vs : Values) (seg : List Char)
    (h : (vs.map Prod.fst).Nodup) : ((parseStep vs seg).map Prod.fst).Nodup := by
  unfold parseStep
  by_cases h1 : seg.isEmpty
  · rw [if_pos h1]; exact h
  · rw [if_neg h1]
    by_cases h2 : seg.contains ';'
    · rw [if_pos h2]; exact h
    · rw [if_neg h2]
      exact nodup_keys_valuesAdd vs _ _ h

/-- The parsed query has no duplicate keys: it is a Go map. -/
theorem parseQuery_keys_nodup (raw : String) :
    ((parseQuery raw).map Prod.fst).Nodup := by
  unfold parseQuery
  have hgen : ∀ (segs : List (List Char)) (vs : Values), (vs.map Prod.fst).Nodup →
      ((segs.foldl parseStep vs).map Prod.fst).Nodup := by
    intro segs
    induction segs with
    | nil => exact fun vs h => h
    | cons seg rest ih =>
      intro vs h
      rw [List.foldl_cons]
      exact ih _ (nodup_keys_parseStep vs seg h)
  exact hgen _ [] (by simp)

/-- The sanitizing fold keeps the keys free of duplicates. -/
theorem sanitize_foldl_nodup (sp : List String) :
    ∀ st : Values × String, (st.1.map Prod.fst).Nodup →
      ((sp.foldl sanitizeStep st).1.map Prod.fst).Nodup := by
  induction sp with
  | nil => exact fun st h => h
  | cons p rest ih =>
    intro st h
    rw [List.foldl_cons]
    apply ih
    unfold sanitizeStep
    by_cases hg : valuesGet st.1 p ≠ ""
    · rw [if_pos hg]
      exact nodup_keys_valuesSet st.1 p "REDACTED" h
    · rw [if_neg hg]; exact h

/-- A key with values is one of the stored keys. -/
theorem mem_keys_of_lookup_ne_nil (vs : Values) (p : String)
    (h : valuesLookup vs p ≠ []) : p ∈ vs.map Prod.fst := by
  induction vs with
  | nil => exact absurd rfl h
  | cons kv rest ih =>
    by_cases hk : kv.1 = p
    · simp [List.mem_cons, hk.symm]
    · rw [show valuesLookup (kv :: rest) p = valuesLookup rest p by
        simp [valuesLookup, hk]] at h
      exact List.mem_cons_of_mem _ (ih h)

/-- Unfolding one key of the encode emission. -/
theorem encFold_cons (vs : Values) (k : String) (ks : List String) :
    encFold vs (k :: ks) =
      (valuesLookup vs k).map (fun w => (k, w)) ++ encFold vs ks := rfl

/-- Every key emitted by `encFold` comes from the given key list. -/
theorem encFold_keys_mem (vs : Values) :
    ∀ (ks : List String) (x : String),
      x ∈ (encFold vs ks).map Prod.fst → x ∈ ks := by
  intro ks
  induction ks with
  | nil => intro x hx; simp [encFold] at hx
  | cons k rest ih =>
    intro x hx
    rw [encFold_cons, List.map_append] at hx
    rcases List.mem_append.mp hx with h1 | h2
    · rw [List.map_map] at h1
      rcases List.mem_map.mp h1 with ⟨w, _, hw⟩
      exact hw ▸ List.mem_cons_self k rest
    · exact List.mem_cons_of_mem _ (ih x h2)

/-- The keys of one key's emitted pairs form a constant, hence sorted,
list. -/
theorem sorted_const_keys (k : String) (l : List String) :
    List.Sorted strLeRel ((l.map fun w => (k, w)).map Prod.fst) := by
  rw [List.map_map]
  induction l with
  | nil => exact List.sorted_nil
  | cons w ws ih =>
    rw [List.map_cons]
    refine List.sorted_cons.mpr ⟨?_, ih⟩
    intro b hb
    rcases List.mem_map.mp hb with ⟨w2, _, hw2⟩
    rw [← hw2]
    exact strLeList_refl k.data

/-- `encFold` over a sorted key list emits its pairs with sorted keys. -/
theorem encFold_keys_sorted (vs : Values) :
    ∀ ks : List String, List.Sorted strLeRel ks →
      List.Sorted strLeRel ((encFold vs ks).map Prod.fst) := by
  intro ks
  induction ks with
  | nil => intro _; simp [encFold]
  | cons k rest ih =>
    intro hs
    rw [encFold_cons, List.map_append]
    apply List.pairwise_append.mpr
    refine ⟨sorted_const_keys k _, ih (List.sorted_cons.mp hs).2, ?_⟩
    intro a ha b hb
    rw [List.map_map] at ha
    rcases List.mem_map.mp ha with ⟨w, _, hw⟩
    rw [← hw]
    exact (List.sorted_cons.mp hs).1 b (encFold_keys_mem vs rest b hb)

/-- The pairs Go's `Encode` emits appear with their keys in sorted order:
the canonical sorted-by-key encoding. -/
theorem encodedPairs_keys_sorted (vs : Values) :
    List.Sorted strLeRel ((encodedPairs vs).map Prod.fst) :=
  encFold_keys_sorted vs _ (List.sorted_insertionSort _ _)

/-- Filtering another key's emitted pairs for `p` leaves nothing. -/
theorem filter_pair_seg (k p : String) (l : List String) (hkp : k ≠ p) :
    ((l.map fun w => (k, w)).filter (fun kv => kv.1 == p)) = [] := by
  induction l with
  | nil => rfl
  | cons w ws ih =>
    rw [List.map_cons, List.filter_cons]
    simp [hkp, ih]

/-- Filtering a key's own emitted pairs for that key keeps them all. -/
theorem filter_pair_seg_self (p : String) (l : List String) :
    ((l.map fun w => (p, w)).filter (fun kv => kv.1 == p)) =
      l.map fun w => (p, w) := by
  induction l with
  | nil => rfl
  | cons w ws ih =>
    rw [List.map_cons, List.filter_cons]
    simp [ih]

/-- With duplicate-free keys and `p` bound to exactly `["REDACTED"]`, the
emission contains exactly the one pair `(p, REDACTED)` for `p`. -/
theorem encFold_filter (vs : Values) (p : String) :
    ∀ ks : List String, ks.Nodup → valuesLookup vs p = ["REDACTED"] →
      (encFold vs ks).filter (fun kv => kv.1 == p) =
        if p ∈ ks then [(p, "REDACTED")] else [] := by
  intro ks
  induction ks with
  | nil => intro _ _; simp [encFold]
  | cons k rest ih =>
    intro hnd hlk
    rw [encFold_cons, List.filter_append]
    by_cases hkp : k = p
    · subst hkp
      rw [hlk, filter_pair_seg_self k ["REDACTED"]]
      have hknr : k ∉ rest := (List.nodup_cons.mp hnd).1
      rw [ih (List.nodup_cons.mp hnd).2 hlk, if_neg hknr,
        if_pos (List.mem_cons_self k rest)]
      simp
    · rw [filter_pair_seg k p (valuesLookup vs k) hkp]
      rw [ih (List.nodup_cons.mp hnd).2 hlk]
      by_cases hpr : p ∈ rest
      · rw [if_pos hpr, if_pos (List.mem_cons_of_mem k hpr)]
        simp
      · rw [if_neg hpr, if_neg (fun hc => by
          rcases List.mem_cons.mp hc with he | hm
          · exact hkp he.symm
          · exact hpr hm)]
        simp

/-- C7 counterexample: a query string with no secret parameter is emitted
verbatim in its original order, not re-encoded in canonical sorted-by-key
order — `b=2&a=1` stays `b=2&a=1` although its canonical encoding is
`a=1&b=2`. -/
theorem query_order_counterexample :
    sanitizeURL New (some ⟨"/foo", "b=2&a=1"⟩) = "/foo?b=2&a=1" ∧
    encode (parseQuery "b=2&a=1") = "a=1&b=2" ∧
    ("/foo?b=2&a=1" : String) ≠ "/foo?a=1&b=2" := by
  decide

/-- C7 amended: when no configured secret parameter has a non-empty first
value in the parsed query, the rendered URL carries the original raw query
verbatim, in its original order; when some secret parameter does, the
rendered URL's query is exactly the re-encoding of the values produced by
the sanitizing loop, and that encoding emits its parameter pairs in
canonical sorted-by-key order. -/
theorem query_reencoded_on_redaction (t : CurlTransport) (u : URL) :
    ((∀ p ∈ t.SecretParams, valuesGet (parseQuery u.rawQuery) p = "") →
      sanitizeURL t (some u) = urlString u) ∧
    ((∃ p ∈ t.SecretParams, valuesGet (parseQuery u.rawQuery) p ≠ "") →
      sanitizeURL t (some u) =
        urlString
          { u with
            rawQuery :=
              encode
                (t.SecretParams.foldl sanitizeStep
                  (parseQuery u.rawQuery, u.rawQuery)).1 } ∧
      List.Sorted strLeRel
        ((encodedPairs
            (t.SecretParams.foldl sanitizeStep
              (parseQuery u.rawQuery, u.rawQuery)).1).map Prod.fst)) := by
  constructor
  · intro h
    show urlString
        { u with
          rawQuery :=
            (t.SecretParams.foldl sanitizeStep (parseQuery u.rawQuery, u.rawQuery)).2 } =
      urlString u
    rw [sanitize_foldl_id t.SecretParams (parseQuery u.rawQuery, u.rawQuery) h]
  · rintro ⟨p, hp, hne⟩
    refine ⟨?_, encodedPairs_keys_sorted _⟩
    show urlString
        { u with
          rawQuery :=
            (t.SecretParams.foldl sanitizeStep (parseQuery u.rawQuery, u.rawQuery)).2 } =
      urlString _
    rw [sanitize_foldl_hit t.SecretParams (parseQuery u.rawQuery, u.rawQuery) p hp hne]

/-- C7 amended witness: with the default policy, `b=2&a=1` (no secret
parameter) is preserved verbatim and unsorted, while a query carrying
`client_secret` is re-encoded from the loop's final values with its pairs
in sorted key order. -/
theorem query_reencoded_on_redaction_witness :
    (∀ p ∈ New.SecretParams, valuesGet (parseQuery "b=2&a=1") p = "") ∧
    sanitizeURL New (some ⟨"/foo", "b=2&a=1"⟩) = urlString ⟨"/foo", "b=2&a=1"⟩ ∧
    (∃ p ∈ New.SecretParams,
      valuesGet (parseQuery "v=1&client_secret=s&x=abc") p ≠ "") ∧
    sanitizeURL New (some ⟨"/foo", "v=1&client_secret=s&x=abc"⟩) =
      urlString
        ⟨"/foo",
          encode
            (New.SecretParams.foldl sanitizeStep
              (parseQuery "v=1&client_secret=s&x=abc",
                "v=1&client_secret=s&x=abc")).1⟩ ∧
    List.Sorted strLeRel
      ((encodedPairs
          (New.SecretParams.foldl sanitizeStep
            (parseQuery "v=1&client_secret=s&x=abc",
              "v=1&client_secret=s&x=abc")).1).map Prod.fst) :=
  ⟨by decide,
    (query_reencoded_on_redaction New ⟨"/foo", "b=2&a=1"⟩).1 (by decide),
    by decide,
    ((query_reencoded_on_redaction New ⟨"/foo", "v=1&client_secret=s&x=abc"⟩).2
      (by decide)).1,
    ((query_reencoded_on_redaction New ⟨"/foo", "v=1&client_secret=s&x=abc"⟩).2
      (by decide)).2⟩

/-- C10: a secret parameter (matched by the case-sensitive lookup) whose
first value is non-empty ends up re-encoded with its whole value list
collapsed to the single value `REDACTED`: the re-encoded query carries
exactly one pair for that key, so any further values are dropped. -/
theorem multi_value_secret_collapsed (t : CurlTransport) (u : URL) (p : String)
    (hp : p ∈ t.SecretParams) (hne : valuesGet (parseQuery u.rawQuery) p ≠ "") :
    ∃ vs : Values,
      sanitizeURL t (some u) = urlString { u with rawQuery := encode vs } ∧
      valuesLookup vs p = ["REDACTED"] ∧
      (encodedPairs vs).filter (fun kv => kv.1 == p) = [(p, "REDACTED")] := by
  have hlk := sanitize_foldl_sets t.SecretParams (parseQuery u.rawQuery, u.rawQuery) p hp hne
  have hnd := sanitize_foldl_nodup t.SecretParams (parseQuery u.rawQuery, u.rawQuery)
    (parseQuery_keys_nodup u.rawQuery)
  refine ⟨(t.SecretParams.foldl sanitizeStep (parseQuery u.rawQuery, u.rawQuery)).1,
    ?_, hlk, ?_⟩
  · show urlString
        { u with
          rawQuery :=
            (t.SecretParams.foldl sanitizeStep (parseQuery u.rawQuery, u.rawQuery)).2 } =
      urlString _
    rw [sanitize_foldl_hit t.SecretParams (parseQuery u.rawQuery, u.rawQuery) p hp hne]
  · have hpk : p ∈
        ((t.SecretParams.foldl sanitizeStep (parseQuery u.rawQuery, u.rawQuery)).1).map
          Prod.fst :=
      mem_keys_of_lookup_ne_nil _ p (by rw [hlk]; simp)
    have hperm := List.perm_insertionSort strLeRel
      (((t.SecretParams.foldl sanitizeStep (parseQuery u.rawQuery, u.rawQuery)).1).map
        Prod.fst)
    show (encFold _ _).filter _ = _
    rw [encFold_filter _ p _ (hperm.nodup_iff.mpr hnd) hlk,
      if_pos (hperm.mem_iff.mpr hpk)]

/-- C10 witness: with the default policy, a query carrying
`client_secret` twice collapses to a single `client_secret=REDACTED`
pair. -/
theorem multi_value_secret_collapsed_witness :
    ("client_secret" ∈ New.SecretParams) ∧
    valuesGet (parseQuery "client_secret=a&client_secret=b&x=1") "client_secret" ≠ "" ∧
    ∃ vs : Values,
      sanitizeURL New (some ⟨"/foo", "client_secret=a&client_secret=b&x=1"⟩) =
        urlString ⟨"/foo", encode vs⟩ ∧
      valuesLookup vs "client_secret" = ["REDACTED"] ∧
      (encodedPairs vs).filter (fun kv => kv.1 == "client_secret") =
        [("client_secret", "REDACTED")] :=
  ⟨by decide, by decide,
    multi_value_secret_collapsed New ⟨"/foo", "client_secret=a&client_secret=b&x=1"⟩
      "client_secret" (by decide) (by decide)⟩

end HttpDebug
